import Mathlib

/-!
Verification of the RLL-Y2H pipeline (three Rust programs) against its
specification.

Shallow embedding conventions:
- Byte sequences (`&[u8]`, read sequences, reference names as raw bytes)
  are `List Nat`, each element a byte value below 256.
- `u64`/`usize` arithmetic is modelled over `Nat` with explicit reduction
  modulo `2 ^ 64` exactly where the machine operation can overflow
  (Rust release semantics: subtraction wraps, shift amounts are masked).
- `f32` threshold arithmetic in the extractor is modelled exactly over `ℚ`.
- A Rust `panic!` (fatal abort) is modelled as `none` of an `Option`.
- The external aligner and the file/record parsers are out of scope per the
  spec; functions consume already-parsed records and alignment outcomes.
-/

set_option maxRecDepth 20000

namespace RLLY2H

/-! ### Wrapping 64-bit primitives -/

/-- Wrapping left shift on `u64`: the shift amount is masked to 6 bits and
the result reduced modulo `2 ^ 64` (Rust release semantics). -/
def wshl (x n : Nat) : Nat := (x <<< (n % 64)) % 2 ^ 64

/-- Wrapping right shift on `u64`: the shift amount is masked to 6 bits. -/
def wshr (x n : Nat) : Nat := x >>> (n % 64)

/-- Wrapping subtraction on `u64`/`usize` values. -/
def wsub64 (a b : Nat) : Nat := (a + (2 ^ 64 - b % 2 ^ 64)) % 2 ^ 64

/-! ### Sequence codec (paircnt/src/main.rs and src/main.rs)

`SEQ_NT4_TABLE` is the 256-entry base-to-2-bit table shared verbatim by both
programs; `IDX_TABLE` is its inverse on the values 0..3. -/

def seqNT4Table : List Nat := [
  0, 1, 2, 3,  4, 4, 4, 4,  4, 4, 4, 4,  4, 4, 4, 4,
  4, 4, 4, 4,  4, 4, 4, 4,  4, 4, 4, 4,  4, 4, 4, 4,
  4, 4, 4, 4,  4, 4, 4, 4,  4, 4, 4, 4,  4, 4, 4, 4,
  4, 4, 4, 4,  4, 4, 4, 4,  4, 4, 4, 4,  4, 4, 4, 4,
  4, 0, 4, 1,  4, 4, 4, 2,  4, 4, 4, 4,  4, 4, 4, 4,
  4, 4, 4, 4,  3, 3, 4, 4,  4, 4, 4, 4,  4, 4, 4, 4,
  4, 0, 4, 1,  4, 4, 4, 2,  4, 4, 4, 4,  4, 4, 4, 4,
  4, 4, 4, 4,  3, 3, 4, 4,  4, 4, 4, 4,  4, 4, 4, 4,
  4, 4, 4, 4,  4, 4, 4, 4,  4, 4, 4, 4,  4, 4, 4, 4,
  4, 4, 4, 4,  4, 4, 4, 4,  4, 4, 4, 4,  4, 4, 4, 4,
  4, 4, 4, 4,  4, 4, 4, 4,  4, 4, 4, 4,  4, 4, 4, 4,
  4, 4, 4, 4,  4, 4, 4, 4,  4, 4, 4, 4,  4, 4, 4, 4,
  4, 4, 4, 4,  4, 4, 4, 4,  4, 4, 4, 4,  4, 4, 4, 4,
  4, 4, 4, 4,  4, 4, 4, 4,  4, 4, 4, 4,  4, 4, 4, 4,
  4, 4, 4, 4,  4, 4, 4, 4,  4, 4, 4, 4,  4, 4, 4, 4,
  4, 4, 4, 4,  4, 4, 4, 4,  4, 4, 4, 4,  4, 4, 4, 4]

/-- `SEQ_NT4_TABLE[b as usize]` (bytes are below 256, so the default of
`getD` is never reached). -/
def seqNt4 (b : Nat) : Nat := seqNT4Table.getD b 4

/-- `IDX_TABLE`: bytes of `A`, `C`, `G`, `T`. -/
def idxTable : List Nat := [65, 67, 71, 84]

/-- Loop body of `compress_seq` in paircnt/src/main.rs: index `i`, forward
accumulator `res`, reverse-complement accumulator `resRc`; `none` models
`Err("Seq can not be longer than 32.")` (original message uses an
apostrophe). `endPos - i` never underflows in reachable states
(`i < len = endPos + 1` whenever the loop body runs with `len ≥ 1`). -/
def compressLoopPC (endPos : Nat) : List Nat → Nat → Nat → Nat → Option (Nat × Nat)
  | [], _, res, resRc => some (res, resRc)
  | b :: rest, i, res, resRc =>
    if 32 ≤ i then none
    else
      compressLoopPC endPos rest (i + 1) (res ||| wshl (seqNt4 b) (i * 2))
        (resRc ||| wshl (wsub64 3 (seqNt4 b)) ((endPos - i) * 2))

/-- `compress_seq` of paircnt/src/main.rs: computes the forward and the
reverse-complement 2-bit packings in one pass (`end = seq.len() - 1` is a
wrapping `usize` subtraction) and returns the numerically smaller one;
`none` is the length error. -/
def compressSeqPC (seq : List Nat) : Option Nat :=
  match compressLoopPC (wsub64 seq.length 1) seq 0 0 0 with
  | none => none
  | some (res, resRc) => some (if resRc < res then resRc else res)

/-- Loop body of `compress_seq` in src/main.rs (single-threaded program):
forward packing only. -/
def compressLoopST : List Nat → Nat → Nat → Option Nat
  | [], _, res => some res
  | b :: rest, i, res =>
    if 32 ≤ i then none
    else compressLoopST rest (i + 1) (res ||| wshl (seqNt4 b) (i * 2))

/-- `compress_seq` of src/main.rs. -/
def compressSeqST (seq : List Nat) : Option Nat :=
  match compressLoopST seq 0 0 with
  | none => none
  | some res => some res

/-- One position of `recover_seq`:
`(code & (3 << (i*2))) >> (i*2)` on `u64`. -/
def recoverDigit (code i : Nat) : Nat :=
  wshr (code &&& wshl 3 (i * 2)) (i * 2)

/-- `recover_seq` of paircnt/src/main.rs: decodes `k` bases
(`for i in 0..k`), mapping each 2-bit value through `IDX_TABLE`. -/
def recoverSeq (code k : Nat) : List Nat :=
  (List.range k).map (fun i => idxTable.getD (recoverDigit code i) 0)

/-- `recover_seq` of src/main.rs: identical body but the loop runs
`for i in 0..(k-1)` with `k : u8`, so it decodes `(k + 255) % 256` bases
(the `u8` subtraction wraps for `k = 0`). -/
def recoverSeqST (code k : Nat) : List Nat :=
  (List.range ((k + 255) % 256)).map (fun i => idxTable.getD (recoverDigit code i) 0)

/-! ### Reference functions for the codec claims -/

/-- Closed form of the forward 2-bit packing: base at position `i`
contributes `seqNt4 b * 4 ^ i`. -/
def fwdCode : List Nat → Nat
  | [] => 0
  | b :: t => seqNt4 b + 4 * fwdCode t

/-- Watson-Crick complement on upper-case base bytes (other bytes fixed);
used to state the reverse-complement of the claims. -/
def compBase (b : Nat) : Nat :=
  if b = 65 then 84
  else if b = 84 then 65
  else if b = 67 then 71
  else if b = 71 then 67
  else b

/-- Reverse complement of a byte sequence. -/
def revComp (s : List Nat) : List Nat := (s.map compBase).reverse

/-- The byte is one of upper-case `A`, `C`, `G`, `T`. -/
def isACGT (b : Nat) : Bool := b = 65 || b = 67 || b = 71 || b = 84

/-- The bytes the table maps to a 2-bit code (below the sentinel 4): the
pre-encoded values 0..3 and the letters `A C G T U a c g t u`. -/
def mappedBases : List Nat :=
  [0, 1, 2, 3, 65, 67, 71, 84, 85, 97, 99, 103, 116, 117]

/-! ### Tag extractor (paircnt/src/main.rs, `extract_pet`)

The external semiglobal aligner is out of scope per the spec; `extract_pet`
consumes its outcome: score, match start `ystart`, match end `yend` and
reference length `ylen` (the read length). The `f32` score test is modelled
exactly over `ℚ`. Rust slices `seq[a..b]` are modelled with `drop`/`take`
(they agree whenever the alignment indices lie within the read, which the
aligner guarantees). -/

structure Alignment where
  score : Int
  ystart : Nat
  yend : Nat
  ylen : Nat

inductive ExtractRes
  | ok (left right : List Nat)
  | scoreTooLow
  | leftTooShort
  | rightTooShort
deriving DecidableEq

/-- `extract_pet`: after the score gate, the left-flanking test compares
`alignment.ystart as u8` — the match start truncated to 8 bits — against
the `u8` flanking length. The source locals `s = ystart - flanking` and
`e = yend + flanking` are inlined (the left slice `seq[s..ystart]` is
computed before the right-flank test but only used in the `Ok` result). -/
def extract_pet (seq : List Nat) (patternLen flanking : Nat)
    (scoreRatioThresh : ℚ) (al : Alignment) : ExtractRes :=
  if (al.score : ℚ) < (patternLen : ℚ) * scoreRatioThresh then .scoreTooLow
  else if al.ystart % 256 < flanking then .leftTooShort
  else if al.ylen < al.yend + flanking then .rightTooShort
  else
    .ok ((seq.drop (al.ystart - flanking)).take (al.ystart - (al.ystart - flanking)))
      ((seq.drop al.yend).take (al.yend + flanking - al.yend))

/-! ### Node classification and edge aggregation (getedges/src/main.rs)

SAM-line parsing is out of scope; `SamRec` is the already-parsed record.
The `panic!` on an unrecognized reference-name prefix, and the panicking
`HashMap` index in the main loop, are modelled as `none`. -/

inductive NotValidType
  | notFound
  | mapqTooSmall (v : Nat)
  | tooManyMisMatch (v : Nat)
  | tooManyAligned (v : Nat)
deriving DecidableEq

inductive Node
  | bait (name : String)
  | prey (name : String)
  | notValid (t : NotValidType)
deriving DecidableEq

structure SamRec where
  qname : Nat
  rname : String
  mapq : Nat
  nMismatch : Nat
  nAligned : Nat

/-- Classification of one alignment record inside `load_sam`: the ordered
threshold chain, then the `bait_`/`prey_` prefix dispatch; `none` is the
fatal prefix `panic!`. -/
def classifyRec (thMapq thMismatch thAligned : Nat) (r : SamRec) : Option Node :=
  if r.rname = "*" then some (.notValid .notFound)
  else if r.mapq < thMapq then some (.notValid (.mapqTooSmall r.mapq))
  else if thMismatch < r.nMismatch then some (.notValid (.tooManyMisMatch r.nMismatch))
  else if thAligned < r.nAligned then some (.notValid (.tooManyAligned r.nAligned))
  else if r.rname.startsWith "bait_" then some (.bait r.rname)
  else if r.rname.startsWith "prey_" then some (.prey r.rname)
  else none

/-- `HashMap::insert`: replace the binding if the key is present. -/
def insertNode : List (Nat × Node) → Nat → Node → List (Nat × Node)
  | [], k, n => [(k, n)]
  | (k2, n2) :: t, k, n =>
    if k2 = k then (k, n) :: t else (k2, n2) :: insertNode t k n

/-- `load_sam`: classify every record in file order, later records
overwriting earlier ones with the same read id. -/
def loadSamAux (thMapq thMismatch thAligned : Nat) :
    List (Nat × Node) → List SamRec → Option (List (Nat × Node))
  | tbl, [] => some tbl
  | tbl, r :: rest =>
    match classifyRec thMapq thMismatch thAligned r with
    | none => none
    | some node => loadSamAux thMapq thMismatch thAligned (insertNode tbl r.qname node) rest

def loadSam (thMapq thMismatch thAligned : Nat) (recs : List SamRec) :
    Option (List (Nat × Node)) :=
  loadSamAux thMapq thMismatch thAligned [] recs

/-- The four pair-category counters of getedges `ResCounter`. -/
structure GECounter where
  nValidPair : Nat
  nPreyNvPair : Nat
  nBaitNvPair : Nat
  nNvPair : Nat
deriving DecidableEq

/-- `*bait_prey_cnt.entry((b_name, p_name)).or_insert(0) += cnt`. -/
def bumpEdge : List ((String × String) × Nat) → (String × String) → Nat →
    List ((String × String) × Nat)
  | [], k, c => [(k, c)]
  | (k2, v) :: t, k, c =>
    if k2 = k then (k2, v + c) :: t else (k2, v) :: bumpEdge t k c

/-- Count stored for a key of the edge table (0 when absent). -/
def getEdgeCnt : List ((String × String) × Nat) → (String × String) → Nat
  | [], _ => 0
  | (k2, v) :: t, k => if k2 = k then v else getEdgeCnt t k

/-- `ResCounter::count` of getedges: the match over the node pair, with the
edge table threaded through (the source mutates it in the Bait-Prey arm).
The final wildcard arm silently ignores Bait-Bait and Prey-Prey pairs. -/
def countGE (tbl : List ((String × String) × Nat)) (rc : GECounter)
    (node1 node2 : Node) (cnt : Nat) :
    List ((String × String) × Nat) × GECounter :=
  match node1, node2 with
  | .prey pName, .bait bName =>
    (bumpEdge tbl (bName, pName) cnt, { rc with nValidPair := rc.nValidPair + 1 })
  | .bait bName, .prey pName =>
    (bumpEdge tbl (bName, pName) cnt, { rc with nValidPair := rc.nValidPair + 1 })
  | .prey _, .notValid _ =>
    (tbl, { rc with nPreyNvPair := rc.nPreyNvPair + 1 })
  | .notValid _, .prey _ =>
    (tbl, { rc with nPreyNvPair := rc.nPreyNvPair + 1 })
  | .bait _, .notValid _ =>
    (tbl, { rc with nBaitNvPair := rc.nBaitNvPair + 1 })
  | .notValid _, .bait _ =>
    (tbl, { rc with nBaitNvPair := rc.nBaitNvPair + 1 })
  | .notValid _, .notValid _ =>
    (tbl, { rc with nNvPair := rc.nNvPair + 1 })
  | _, _ => (tbl, rc)

/-- Sum of the four pair-category counters (the `total` of the report). -/
def totalGE (rc : GECounter) : Nat :=
  rc.nValidPair + rc.nBaitNvPair + rc.nPreyNvPair + rc.nNvPair

/-- Fold of `ResCounter::count` over a run of already-classified tag pairs. -/
def runPairs : List (Node × Node × Nat) →
    List ((String × String) × Nat) × GECounter →
    List ((String × String) × Nat) × GECounter
  | [], st => st
  | (n1, n2, c) :: rest, st => runPairs rest (countGE st.1 st.2 n1 n2 c)

def isBaitNode : Node → Bool
  | .bait _ => true
  | _ => false

def isPreyNode : Node → Bool
  | .prey _ => true
  | _ => false

/-- One iteration of the getedges main loop on a parsed `.cnt` line
`(key1, key2, cnt)`: both ids are looked up with the panicking `HashMap`
index (`&key2name[&key]`), so a missing id aborts the run (`none`). -/
def processPair (key2name : List (Nat × Node))
    (st : List ((String × String) × Nat) × GECounter) (line : Nat × Nat × Nat) :
    Option (List ((String × String) × Nat) × GECounter) :=
  match List.lookup line.1 key2name, List.lookup line.2.1 key2name with
  | some n1, some n2 => some (countGE st.1 st.2 n1 n2 line.2.2)
  | _, _ => none

/-- The getedges main loop over the `.cnt` lines. -/
def runEdgeLines (key2name : List (Nat × Node)) :
    List (Nat × Nat × Nat) →
    List ((String × String) × Nat) × GECounter →
    Option (List ((String × String) × Nat) × GECounter)
  | [], st => some st
  | l :: rest, st =>
    match processPair key2name st l with
    | none => none
    | some st2 => runEdgeLines key2name rest st2

/-! ### Emission ordering (paircnt/src/main.rs, `kv_vec.sort_by`)

`kv_vec.sort_by(|a, b| b.2.cmp(a.2))` is a stable sort whose comparator
orders by count, descending, and reports equality on ties. Any stable sort
realizes the documented contract of `slice::sort_by`; insertion sort is
stable, so the model uses `List.insertionSort` with the relation induced by
the comparator. -/

/-- The order induced by the comparator `|a, b| b.2.cmp(a.2)`:
`a` may come before `b` when the count of `a` is at least that of `b`. -/
def emitLE (a b : Nat × Nat × Nat) : Prop := b.2.2 ≤ a.2.2

instance : DecidableRel emitLE :=
  fun a b => inferInstanceAs (Decidable (b.2.2 ≤ a.2.2))

instance : IsTotal (Nat × Nat × Nat) emitLE :=
  ⟨fun a b => Nat.le_total b.2.2 a.2.2⟩

instance : IsTrans (Nat × Nat × Nat) emitLE :=
  ⟨fun _ _ _ hab hbc => Nat.le_trans hbc hab⟩

/-- The emission sort of the pair-count table. -/
def sortPairsByCountDesc (l : List (Nat × Nat × Nat)) : List (Nat × Nat × Nat) :=
  List.insertionSort emitLE l

/-! ### Bit-level helper lemmas -/

lemma two_pow_two_mul (i : Nat) : (2 : Nat) ^ (i * 2) = 4 ^ i := by
  rw [Nat.mul_comm, Nat.pow_mul]

/-- Disjoint OR is addition: when `a` occupies only bits at or above `k`
and `b` only bits below `k`. -/
lemma lor_disjoint {a b k : Nat} (ha : a % 2 ^ k = 0) (hb : b < 2 ^ k) :
    a ||| b = a + b := by
  obtain ⟨q, hq⟩ : 2 ^ k ∣ a := Nat.dvd_of_mod_eq_zero ha
  subst hq
  exact (Nat.mul_add_lt_is_or hb q).symm

/-- Masking two bits at offset `s` and shifting down extracts the base-4
digit: `(c &&& (3 <<< s)) >>> s = (c >>> s) % 4`. -/
lemma and_three_shl_shr (c s : Nat) : (c &&& (3 <<< s)) >>> s = (c >>> s) % 4 := by
  apply Nat.eq_of_testBit_eq
  intro j
  have h4 : (4 : Nat) = 2 ^ 2 := by norm_num
  rw [h4]
  simp only [Nat.testBit_shiftRight, Nat.testBit_and, Nat.testBit_shiftLeft,
    Nat.testBit_mod_two_pow]
  have h3 : Nat.testBit 3 (s + j - s) = decide (j < 2) := by
    rw [show s + j - s = j from by omega, show (3 : Nat) = 2 ^ 2 - 1 from by norm_num,
      Nat.testBit_two_pow_sub_one]
  rw [h3]
  have hge : decide (s + j ≥ s) = true := by simp
  rw [hge]
  cases hc : Nat.testBit c (s + j) <;> simp

lemma wshl_small {m s : Nat} (hm : m ≤ 3) (hs : s ≤ 62) :
    wshl m s = m * 2 ^ s := by
  unfold wshl
  rw [Nat.mod_eq_of_lt (show s < 64 by omega), Nat.shiftLeft_eq]
  apply Nat.mod_eq_of_lt
  calc m * 2 ^ s ≤ 3 * 2 ^ 62 :=
        Nat.mul_le_mul hm (Nat.pow_le_pow_right (by norm_num) hs)
    _ < 2 ^ 64 := by norm_num

lemma wsub64_small {a b : Nat} (hb : b ≤ a) (ha : a < 2 ^ 64) :
    wsub64 a b = a - b := by
  have h64 : (2 : Nat) ^ 64 = 18446744073709551616 := by norm_num
  unfold wsub64
  rw [h64] at *
  omega

/-! ### Codec lemmas -/

lemma fwdCode_lt {l : List Nat} (hv : ∀ b ∈ l, seqNt4 b < 4) :
    fwdCode l < 4 ^ l.length := by
  induction l with
  | nil => simp [fwdCode]
  | cons b t ih =>
    have hb : seqNt4 b < 4 := hv b (by simp)
    have ht := ih (fun x hx => hv x (by simp [hx]))
    simp only [fwdCode, List.length_cons, Nat.pow_succ]
    omega

lemma fwdCode_append (l : List Nat) (b : Nat) :
    fwdCode (l ++ [b]) = fwdCode l + seqNt4 b * 4 ^ l.length := by
  induction l with
  | nil => simp [fwdCode]
  | cons c t ih =>
    rw [List.cons_append]
    simp only [fwdCode]
    rw [ih, List.length_cons, Nat.pow_succ]
    ring

lemma eq_of_isACGT {b : Nat} (h : isACGT b = true) :
    b = 65 ∨ b = 67 ∨ b = 71 ∨ b = 84 := by
  simp only [isACGT, Bool.or_eq_true, decide_eq_true_eq] at h
  tauto

lemma seqNt4_lt_of_isACGT {b : Nat} (h : isACGT b = true) : seqNt4 b < 4 := by
  rcases eq_of_isACGT h with rfl | rfl | rfl | rfl <;> decide

lemma seqNt4_compBase {b : Nat} (h : isACGT b = true) :
    seqNt4 (compBase b) = 3 - seqNt4 b := by
  rcases eq_of_isACGT h with rfl | rfl | rfl | rfl <;> decide

lemma isACGT_compBase {b : Nat} (h : isACGT b = true) : isACGT (compBase b) = true := by
  rcases eq_of_isACGT h with rfl | rfl | rfl | rfl <;> decide

lemma idxTable_getD_seqNt4 {b : Nat} (h : isACGT b = true) :
    idxTable.getD (seqNt4 b) 0 = b := by
  rcases eq_of_isACGT h with rfl | rfl | rfl | rfl <;> decide

lemma revComp_append (l : List Nat) (b : Nat) :
    revComp (l ++ [b]) = compBase b :: revComp l := by
  simp [revComp]

lemma revComp_length (s : List Nat) : (revComp s).length = s.length := by
  simp [revComp]

lemma isACGT_of_mem_revComp {s : List Nat} (hv : ∀ b ∈ s, isACGT b = true) :
    ∀ b ∈ revComp s, isACGT b = true := by
  intro b hb
  simp only [revComp, List.mem_reverse, List.mem_map] at hb
  obtain ⟨a, ha, rfl⟩ := hb
  exact isACGT_compBase (hv a ha)

/-- Invariant of the paircnt compression loop: after processing `pre`, the
forward accumulator holds `fwdCode pre` and the reverse-complement
accumulator holds the packing of `revComp pre` shifted to the top
positions; running the loop on the remainder `t` yields the two full
packings. -/
lemma compressLoopPC_eq (t : List Nat) : ∀ pre : List Nat,
    pre.length + t.length ≤ 32 →
    (∀ b ∈ pre, isACGT b = true) → (∀ b ∈ t, isACGT b = true) →
    compressLoopPC (pre.length + t.length - 1) t pre.length (fwdCode pre)
      (fwdCode (revComp pre) * 4 ^ t.length)
    = some (fwdCode (pre ++ t), fwdCode (revComp (pre ++ t))) := by
  induction t with
  | nil =>
    intro pre _ _ _
    simp [compressLoopPC]
  | cons b t2 ih =>
    intro pre hlen hpre ht
    simp only [List.length_cons] at hlen
    have hi : pre.length < 32 := by omega
    have hn : t2.length ≤ 31 := by omega
    have hb : isACGT b = true := ht b (by simp)
    have hm : seqNt4 b < 4 := seqNt4_lt_of_isACGT hb
    have hres : fwdCode pre ||| wshl (seqNt4 b) (pre.length * 2) =
        fwdCode (pre ++ [b]) := by
      have h1 : wshl (seqNt4 b) (pre.length * 2) =
          seqNt4 b * 2 ^ (pre.length * 2) :=
        wshl_small (by omega) (by omega)
      have h2 : fwdCode pre < 2 ^ (pre.length * 2) := by
        rw [two_pow_two_mul]
        exact fwdCode_lt (fun x hx => seqNt4_lt_of_isACGT (hpre x hx))
      rw [h1, Nat.lor_comm, lor_disjoint (Nat.mul_mod_left _ _) h2,
        fwdCode_append, two_pow_two_mul]
      omega
    have hrc : fwdCode (revComp pre) * 4 ^ (t2.length + 1) |||
        wshl (wsub64 3 (seqNt4 b)) (t2.length * 2) =
        fwdCode (revComp (pre ++ [b])) * 4 ^ t2.length := by
      have h3m : wsub64 3 (seqNt4 b) = 3 - seqNt4 b :=
        wsub64_small (by omega) (by norm_num)
      have h1 : wshl (3 - seqNt4 b) (t2.length * 2) =
          (3 - seqNt4 b) * 2 ^ (t2.length * 2) :=
        wshl_small (by omega) (by omega)
      have ha : fwdCode (revComp pre) * 4 ^ (t2.length + 1) %
          2 ^ (t2.length * 2 + 2) = 0 := by
        have he : (2 : Nat) ^ (t2.length * 2 + 2) = 4 ^ (t2.length + 1) := by
          rw [show t2.length * 2 + 2 = (t2.length + 1) * 2 from by ring,
            two_pow_two_mul]
        rw [he]
        exact Nat.mul_mod_left _ _
      have hblt : (3 - seqNt4 b) * 2 ^ (t2.length * 2) <
          2 ^ (t2.length * 2 + 2) := by
        have hp : 0 < (2 : Nat) ^ (t2.length * 2) := Nat.two_pow_pos _
        have he : (2 : Nat) ^ (t2.length * 2 + 2) = 2 ^ (t2.length * 2) * 4 := by
          rw [Nat.pow_succ, Nat.pow_succ]
          ring
        rw [he]
        have hle : (3 - seqNt4 b) * 2 ^ (t2.length * 2) ≤
            3 * 2 ^ (t2.length * 2) :=
          Nat.mul_le_mul_right _ (by omega)
        omega
      rw [h3m, h1, lor_disjoint ha hblt, revComp_append]
      simp only [fwdCode]
      rw [seqNt4_compBase hb, two_pow_two_mul, Nat.pow_succ]
      ring
    simp only [compressLoopPC, List.length_cons]
    rw [if_neg (by omega)]
    have hsub : pre.length + (t2.length + 1) - 1 - pre.length = t2.length := by
      omega
    rw [hsub, hres, hrc]
    have := ih (pre ++ [b])
      (by simp; omega)
      (by
        intro x hx
        rcases List.mem_append.mp hx with h | h
        · exact hpre x h
        · simp at h
          subst h
          exact hb)
      (fun x hx => ht x (by simp [hx]))
    simp only [List.length_append, List.length_cons, List.length_nil] at this
    rw [show pre.length + (t2.length + 1) - 1 = pre.length + 1 + t2.length - 1
      from by omega]
    rw [show pre.length + 1 = (pre ++ [b]).length from by simp] at *
    rw [this]
    simp [List.append_assoc]

/-- `compress_seq` of paircnt stores the numerically smaller of the forward
and reverse-complement packings. -/
lemma compressSeqPC_eq_min (s : List Nat) (h32 : s.length ≤ 32)
    (hv : ∀ b ∈ s, isACGT b = true) :
    compressSeqPC s = some (min (fwdCode s) (fwdCode (revComp s))) := by
  by_cases hs : s = []
  · subst hs
    rfl
  · have h1 : 1 ≤ s.length := List.length_pos.mpr hs
    have hEnd : wsub64 s.length 1 = s.length - 1 :=
      wsub64_small h1 (lt_of_le_of_lt h32 (by norm_num))
    unfold compressSeqPC
    rw [hEnd]
    have hmain := compressLoopPC_eq s [] (by simpa using h32) (by simp) hv
    simp only [List.length_nil, Nat.zero_add, List.nil_append] at hmain
    rw [show fwdCode [] = 0 from rfl, show revComp [] = [] from rfl] at hmain
    rw [show fwdCode [] = 0 from rfl, Nat.zero_mul] at hmain
    rw [hmain]
    show some (if fwdCode (revComp s) < fwdCode s then fwdCode (revComp s)
        else fwdCode s)
      = some (min (fwdCode s) (fwdCode (revComp s)))
    rcases Nat.lt_or_ge (fwdCode (revComp s)) (fwdCode s) with h | h
    · rw [if_pos h, Nat.min_eq_right (Nat.le_of_lt h)]
    · rw [if_neg (Nat.not_lt.mpr h), Nat.min_eq_left h]

lemma recoverDigit_eq_div (c i : Nat) (h : i ≤ 31) :
    recoverDigit c i = c / 4 ^ i % 4 := by
  have hs : i * 2 < 64 := by omega
  have hlt : 3 <<< (i * 2) < 2 ^ 64 := by
    rw [Nat.shiftLeft_eq]
    calc (3 : Nat) * 2 ^ (i * 2) ≤ 3 * 2 ^ 62 :=
          Nat.mul_le_mul_left 3 (Nat.pow_le_pow_right (by norm_num) (by omega))
      _ < 2 ^ 64 := by norm_num
  unfold recoverDigit wshr wshl
  rw [Nat.mod_eq_of_lt hs, Nat.mod_eq_of_lt hlt, and_three_shl_shr,
    Nat.shiftRight_eq_div_pow, two_pow_two_mul]

lemma recoverDigit_lt_four (c i : Nat) : recoverDigit c i < 4 := by
  have h1 : i * 2 % 64 ≤ 62 := by omega
  have hlt : 3 <<< (i * 2 % 64) < 2 ^ 64 := by
    rw [Nat.shiftLeft_eq]
    calc (3 : Nat) * 2 ^ (i * 2 % 64) ≤ 3 * 2 ^ 62 :=
          Nat.mul_le_mul_left 3 (Nat.pow_le_pow_right (by norm_num) h1)
      _ < 2 ^ 64 := by norm_num
  unfold recoverDigit wshr wshl
  rw [Nat.mod_eq_of_lt hlt, and_three_shl_shr]
  exact Nat.mod_lt _ (by norm_num)

lemma recoverSeq_succ (c n : Nat) (h : n ≤ 31) :
    recoverSeq c (n + 1) = idxTable.getD (c % 4) 0 :: recoverSeq (c / 4) n := by
  unfold recoverSeq
  rw [List.range_succ_eq_map]
  simp only [List.map_cons, List.map_map]
  congr 1
  · rw [recoverDigit_eq_div c 0 (by omega)]
    norm_num
  · apply List.map_congr_left
    intro i hi
    have hin : i < n := List.mem_range.mp hi
    simp only [Function.comp_apply]
    congr 1
    rw [recoverDigit_eq_div c (i + 1) (by omega),
      recoverDigit_eq_div (c / 4) i (by omega), Nat.div_div_eq_div_mul]
    congr 2
    rw [Nat.pow_succ, Nat.mul_comm]

lemma recoverSeq_fwdCode (u : List Nat) (h : u.length ≤ 32)
    (hv : ∀ b ∈ u, isACGT b = true) :
    recoverSeq (fwdCode u) u.length = u := by
  induction u with
  | nil => rfl
  | cons b t ih =>
    simp only [List.length_cons] at h ⊢
    have hb := hv b (by simp)
    have hm : seqNt4 b < 4 := seqNt4_lt_of_isACGT hb
    rw [recoverSeq_succ _ _ (by omega)]
    have hmod : fwdCode (b :: t) % 4 = seqNt4 b := by
      simp only [fwdCode]
      omega
    have hdiv : fwdCode (b :: t) / 4 = fwdCode t := by
      simp only [fwdCode]
      omega
    rw [hmod, hdiv, idxTable_getD_seqNt4 hb,
      ih (by omega) (fun x hx => hv x (by simp [hx]))]

lemma idxTable_getD_isACGT {d : Nat} (h : d < 4) :
    isACGT (idxTable.getD d 0) = true := by
  interval_cases d <;> decide

/-! ### Length-error characterization of the two encoders -/

lemma compressLoopST_none (t : List Nat) : ∀ i res,
    compressLoopST t i res = none ↔ 32 < i + t.length ∧ t ≠ [] := by
  induction t with
  | nil =>
    intro i res
    simp [compressLoopST]
  | cons b t2 ih =>
    intro i res
    simp only [compressLoopST, List.length_cons]
    by_cases h : 32 ≤ i
    · rw [if_pos h]
      simp
      omega
    · rw [if_neg h, ih]
      rcases Decidable.em (t2 = []) with rfl | hne
      · simp
        omega
      · simp [hne]
        omega

lemma compressLoopPC_none (endPos : Nat) (t : List Nat) : ∀ i res resRc,
    compressLoopPC endPos t i res resRc = none ↔ 32 < i + t.length ∧ t ≠ [] := by
  induction t with
  | nil =>
    intro i res resRc
    simp [compressLoopPC]
  | cons b t2 ih =>
    intro i res resRc
    simp only [compressLoopPC, List.length_cons]
    by_cases h : 32 ≤ i
    · rw [if_pos h]
      simp
      omega
    · rw [if_neg h, ih]
      rcases Decidable.em (t2 = []) with rfl | hne
      · simp
        omega
      · simp [hne]
        omega

lemma compressSeqST_none (s : List Nat) :
    compressSeqST s = none ↔ 32 < s.length := by
  have h := compressLoopST_none s 0 0
  have hstep : compressSeqST s = none ↔ compressLoopST s 0 0 = none := by
    unfold compressSeqST
    split <;> simp [*]
  rw [hstep, h]
  constructor
  · intro hx
    omega
  · intro hx
    refine ⟨by omega, ?_⟩
    intro he
    subst he
    simp at hx

lemma compressSeqPC_none (s : List Nat) :
    compressSeqPC s = none ↔ 32 < s.length := by
  have h := compressLoopPC_none (wsub64 s.length 1) s 0 0 0
  have hstep : compressSeqPC s = none ↔
      compressLoopPC (wsub64 s.length 1) s 0 0 0 = none := by
    unfold compressSeqPC
    split <;> simp [*]
  rw [hstep, h]
  constructor
  · intro hx
    omega
  · intro hx
    refine ⟨by omega, ?_⟩
    intro he
    subst he
    simp at hx

/-! ### Edge-aggregation lemmas -/

lemma getEdgeCnt_bumpEdge (t : List ((String × String) × Nat))
    (k : String × String) (c : Nat) :
    getEdgeCnt (bumpEdge t k c) k = getEdgeCnt t k + c := by
  induction t with
  | nil => simp [bumpEdge, getEdgeCnt]
  | cons p t2 ih =>
    obtain ⟨k2, v⟩ := p
    by_cases h : k2 = k
    · subst h
      simp [bumpEdge, getEdgeCnt]
    · simp [bumpEdge, getEdgeCnt, h, ih]

/-- Every call of `ResCounter::count` on a pair that is not Bait-Bait and
not Prey-Prey increments exactly one of the four counters. -/
lemma totalGE_countGE {n1 n2 : Node}
    (h1 : (isBaitNode n1 && isBaitNode n2) = false)
    (h2 : (isPreyNode n1 && isPreyNode n2) = false)
    (tbl : List ((String × String) × Nat)) (rc : GECounter) (c : Nat) :
    totalGE (countGE tbl rc n1 n2 c).2 = totalGE rc + 1 := by
  cases n1 <;> cases n2 <;>
    simp_all [countGE, totalGE, isBaitNode, isPreyNode] <;> omega

/-! ### Claim theorems -/

/-- C1 (amended): during edge aggregation, a read identifier with no entry
in the loaded alignment table makes the run abort at the panicking lookup
(it is not classified `NotValid(NotFound)`); an identifier whose record has
the unmapped reference name `*` is classified `NotValid(NotFound)`. -/
theorem c1_missing_id_aborts :
    (∀ (key2name : List (Nat × Node))
        (st : List ((String × String) × Nat) × GECounter) (k1 k2 c : Nat),
      List.lookup k1 key2name = none → processPair key2name st (k1, k2, c) = none) ∧
    (∀ (thMapq thMismatch thAligned : Nat) (r : SamRec), r.rname = "*" →
      classifyRec thMapq thMismatch thAligned r =
        some (Node.notValid NotValidType.notFound)) := by
  constructor
  · intro key2name st k1 k2 c h
    simp [processPair, h]
  · intro _ _ _ r h
    simp [classifyRec, h]

/-- C1 witness: a concrete missing id aborts; a concrete unmapped record
classifies `NotFound`. -/
theorem c1_witness :
    processPair [] ([], ⟨0, 0, 0, 0⟩) (7, 9, 5) = none ∧
    classifyRec 0 0 1 ⟨7, "*", 0, 0, 0⟩ =
      some (Node.notValid NotValidType.notFound) :=
  ⟨c1_missing_id_aborts.1 [] ([], ⟨0, 0, 0, 0⟩) 7 9 5 rfl,
    c1_missing_id_aborts.2 0 0 1 ⟨7, "*", 0, 0, 0⟩ rfl⟩

/-- C1 counterexample to the claim as stated: with an empty alignment table
the run over the single pair `(7, 9, 5)` aborts (the claim says it
classifies id 7 as `NotValid(NotFound)` and does not abort). -/
theorem c1_cex : runEdgeLines [] [(7, 9, 5)] ([], ⟨0, 0, 0, 0⟩) = none := rfl

/-- C2 (amended): when the score gate passes, the extractor returns
`LeftTooShort` exactly when `ystart` reduced modulo 256 (the `as u8` cast)
is below the flanking length; when the truncated check passes, the left tag
is the `flanking` bases immediately preceding the match start. -/
theorem c2_left_flank_check_mod256 :
    ∀ (seq : List Nat) (patternLen flanking : Nat) (thresh : ℚ) (al : Alignment),
      ¬((al.score : ℚ) < (patternLen : ℚ) * thresh) →
      ((extract_pet seq patternLen flanking thresh al = ExtractRes.leftTooShort ↔
          al.ystart % 256 < flanking) ∧
        (flanking ≤ al.ystart % 256 →
          extract_pet seq patternLen flanking thresh al = ExtractRes.rightTooShort ∨
          extract_pet seq patternLen flanking thresh al =
            ExtractRes.ok ((seq.drop (al.ystart - flanking)).take flanking)
              ((seq.drop al.yend).take flanking))) := by
  intro seq patternLen flanking thresh al hscore
  unfold extract_pet
  rw [if_neg hscore]
  constructor
  · by_cases hlt : al.ystart % 256 < flanking
    · rw [if_pos hlt]
      simp [hlt]
    · rw [if_neg hlt]
      simp only [hlt, iff_false]
      split <;> simp
  · intro hge
    rw [if_neg (by omega)]
    have hfl : flanking ≤ al.ystart := le_trans hge (Nat.mod_le _ _)
    by_cases hr : al.ylen < al.yend + flanking
    · left
      rw [if_pos hr]
    · right
      rw [if_neg hr,
        show al.ystart - (al.ystart - flanking) = flanking from by omega,
        show al.yend + flanking - al.yend = flanking from by omega]

/-- C2 witness: a passing score with `ystart = 10`, `flanking = 3`. -/
theorem c2_witness :
    (extract_pet (List.replicate 40 65) 4 3 1 ⟨100, 10, 12, 40⟩ =
        ExtractRes.leftTooShort ↔ 10 % 256 < 3) ∧
    (3 ≤ 10 % 256 →
      extract_pet (List.replicate 40 65) 4 3 1 ⟨100, 10, 12, 40⟩ =
        ExtractRes.rightTooShort ∨
      extract_pet (List.replicate 40 65) 4 3 1 ⟨100, 10, 12, 40⟩ =
        ExtractRes.ok (((List.replicate 40 65).drop (10 - 3)).take 3)
          (((List.replicate 40 65).drop 12).take 3)) :=
  c2_left_flank_check_mod256 (List.replicate 40 65) 4 3 1 ⟨100, 10, 12, 40⟩
    (by norm_num)

/-- C2 counterexample to the claim as stated: with `ystart = 256` and
`flanking = 1` (score gate passing), the code returns `LeftTooShort`
although `ystart` is not below the flanking length — the comparison uses
`ystart` truncated to 8 bits, not the arbitrary non-negative `ystart`. -/
theorem c2_cex :
    extract_pet [] 4 1 1 ⟨100, 256, 258, 300⟩ = ExtractRes.leftTooShort ∧
    ¬(256 < 1) := by
  constructor
  · unfold extract_pet
    rw [if_neg (by norm_num), if_pos (by norm_num)]
  · decide

/-- C3 (amended): both encoders fail exactly on sequences longer than 32
bases; a byte is mapped to the sentinel 4 exactly when it is not one of the
table-recognized bytes (`0..3`, `A C G T U a c g t u` — so the recognized
lower-case and `U` bases, although outside `{A,C,G,T}`, map to 2-bit codes
rather than to the sentinel). -/
theorem c3_encode_error_iff :
    (∀ s : List Nat, compressSeqST s = none ↔ 32 < s.length) ∧
    (∀ s : List Nat, compressSeqPC s = none ↔ 32 < s.length) ∧
    (∀ b : Nat, b < 256 → (seqNt4 b = 4 ↔ b ∉ mappedBases)) := by
  refine ⟨compressSeqST_none, compressSeqPC_none, ?_⟩
  decide

/-- C3 witness: byte 78 (`N`) is below 256 and not table-recognized, so it
maps to the sentinel 4. -/
theorem c3_witness : seqNt4 78 = 4 :=
  (c3_encode_error_iff.2.2 78 (by decide)).mpr (by decide)

/-- C3 counterexample to the claim as stated: byte 97 (`a`) is outside
`{A,C,G,T}` yet the table maps it to 0, not to the sentinel 4 (encoding
still succeeds, producing the same code as `A`). -/
theorem c3_cex :
    (97 : Nat) ∉ ([65, 67, 71, 84] : List Nat) ∧ seqNt4 97 = 0 ∧
    compressSeqPC [97] = some 0 ∧ compressSeqST [97] = some 0 :=
  ⟨by decide, by decide, by decide, by decide⟩

/-- Stability of the emission sort: for every count value, the entries
carrying that count appear in the output in exactly their input order. -/
lemma sortPairs_filter_count (l : List (Nat × Nat × Nat)) (v : Nat) :
    (sortPairsByCountDesc l).filter (fun e => e.2.2 == v) =
      l.filter (fun e => e.2.2 == v) := by
  have hpair : (l.filter (fun e => e.2.2 == v)).Pairwise emitLE := by
    apply List.pairwise_of_forall_mem_list
    intro a ha b hb
    have ha3 : a.2.2 = v := by simpa using (List.mem_filter.mp ha).2
    have hb3 : b.2.2 = v := by simpa using (List.mem_filter.mp hb).2
    show b.2.2 ≤ a.2.2
    omega
  have hsub : List.Sublist (l.filter (fun e => e.2.2 == v))
      (sortPairsByCountDesc l) :=
    List.sublist_insertionSort hpair (List.filter_sublist l)
  have hsub2 : List.Sublist (l.filter (fun e => e.2.2 == v))
      ((sortPairsByCountDesc l).filter (fun e => e.2.2 == v)) := by
    have h2 := hsub.filter (fun e => e.2.2 == v)
    simpa using h2
  have hperm : ((sortPairsByCountDesc l).filter (fun e => e.2.2 == v)).Perm
      (l.filter (fun e => e.2.2 == v)) :=
    (List.perm_insertionSort emitLE l).filter _
  exact (hsub2.eq_of_length hperm.length_eq.symm).symm

/-- C4 (amended): the concurrent program emits the pair table by a stable
sort on count alone: the output is a permutation of the accumulated
entries, non-increasing in count, and for every count value the entries
carrying that count keep exactly their accumulation order — so ties are
not reordered into key order. -/
theorem c4_emission_sort_stable :
    ∀ l : List (Nat × Nat × Nat),
      (sortPairsByCountDesc l).Perm l ∧
      List.Sorted emitLE (sortPairsByCountDesc l) ∧
      ∀ v : Nat, (sortPairsByCountDesc l).filter (fun e => e.2.2 == v) =
        l.filter (fun e => e.2.2 == v) :=
  fun l => ⟨List.perm_insertionSort emitLE l, List.sorted_insertionSort emitLE l,
    sortPairs_filter_count l⟩

/-- C4 counterexample to the claim as stated: two tables with the same
contents but different iteration order emit differently under the stable
count-only sort, so ties are not broken by key order and the emission is
not a deterministic function of the table contents. -/
theorem c4_cex :
    sortPairsByCountDesc [(5, 5, 1), (1, 1, 1)] ≠
      sortPairsByCountDesc [(1, 1, 1), (5, 5, 1)] := by
  decide

/-- C5: for an `{A,C,G,T}` sequence of length at most 32, the stored code
is the numerical minimum of the forward and reverse-complement packings,
and decoding it at the original length yields the sequence itself when the
forward code is not larger, and its reverse complement otherwise — never a
third value. -/
theorem c5_roundtrip (s : List Nat) (h32 : s.length ≤ 32)
    (hv : ∀ b ∈ s, isACGT b = true) :
    compressSeqPC s = some (min (fwdCode s) (fwdCode (revComp s))) ∧
    recoverSeq (min (fwdCode s) (fwdCode (revComp s))) s.length =
      if fwdCode (revComp s) < fwdCode s then revComp s else s := by
  refine ⟨compressSeqPC_eq_min s h32 hv, ?_⟩
  rcases Nat.lt_or_ge (fwdCode (revComp s)) (fwdCode s) with h | h
  · rw [if_pos h, Nat.min_eq_right (Nat.le_of_lt h)]
    have hr := recoverSeq_fwdCode (revComp s)
      (by rw [revComp_length]; exact h32) (isACGT_of_mem_revComp hv)
    rw [revComp_length] at hr
    exact hr
  · rw [if_neg (Nat.not_lt.mpr h), Nat.min_eq_left h]
    exact recoverSeq_fwdCode s h32 hv

/-- C5 witness: the concrete sequence `AAC`. -/
theorem c5_witness :
    compressSeqPC [65, 65, 67] =
      some (min (fwdCode [65, 65, 67]) (fwdCode (revComp [65, 65, 67]))) ∧
    recoverSeq (min (fwdCode [65, 65, 67]) (fwdCode (revComp [65, 65, 67])))
        ([65, 65, 67] : List Nat).length =
      if fwdCode (revComp [65, 65, 67]) < fwdCode [65, 65, 67]
        then revComp [65, 65, 67] else [65, 65, 67] :=
  c5_roundtrip [65, 65, 67] (by decide) (by decide)

/-- C6 (amended): for any stored `u64` code and length `1 ≤ k < 256`, the
concurrent decoder returns exactly `k` bases over `{A,C,G,T}` and never
fails; the single-threaded decoder also never fails and stays in
`{A,C,G,T}` but returns only `k - 1` bases (its loop runs `0..(k-1)`). -/
theorem c6_decode_lengths :
    ∀ code k : Nat, code < 2 ^ 64 → 1 ≤ k → k < 256 →
      (recoverSeq code k).length = k ∧
      (∀ b ∈ recoverSeq code k, isACGT b = true) ∧
      (recoverSeqST code k).length = k - 1 ∧
      (∀ b ∈ recoverSeqST code k, isACGT b = true) := by
  intro code k _ h1 h256
  refine ⟨by simp [recoverSeq], ?_, ?_, ?_⟩
  · intro b hb
    simp only [recoverSeq, List.mem_map] at hb
    obtain ⟨i, _, rfl⟩ := hb
    exact idxTable_getD_isACGT (recoverDigit_lt_four code i)
  · simp only [recoverSeqST, List.length_map, List.length_range]
    omega
  · intro b hb
    simp only [recoverSeqST, List.mem_map] at hb
    obtain ⟨i, _, rfl⟩ := hb
    exact idxTable_getD_isACGT (recoverDigit_lt_four code i)

/-- C6 witness: code 16 at length 3. -/
theorem c6_witness :
    (recoverSeq 16 3).length = 3 ∧
    (∀ b ∈ recoverSeq 16 3, isACGT b = true) ∧
    (recoverSeqST 16 3).length = 3 - 1 ∧
    (∀ b ∈ recoverSeqST 16 3, isACGT b = true) :=
  c6_decode_lengths 16 3 (by norm_num) (by decide) (by decide)

/-- C6 counterexample to the claim as stated: in the single-threaded
output context, decoding at length parameter `k = 1` yields 0 bases, not
exactly 1. -/
theorem c6_cex : (recoverSeqST 0 1).length ≠ 1 := by decide

/-- C7: the classifier applies its checks in the fixed order
unmapped-sentinel, mapping-quality, mismatch-count,
alternate-alignment-count, first match winning; in particular an unmapped
record is `NotValid(NotFound)` whatever its other fields. -/
theorem c7_classification_precedence :
    ∀ (thMapq thMismatch thAligned : Nat) (r : SamRec),
      (r.rname = "*" →
        classifyRec thMapq thMismatch thAligned r =
          some (Node.notValid NotValidType.notFound)) ∧
      (r.rname ≠ "*" → r.mapq < thMapq →
        classifyRec thMapq thMismatch thAligned r =
          some (Node.notValid (NotValidType.mapqTooSmall r.mapq))) ∧
      (r.rname ≠ "*" → ¬r.mapq < thMapq → thMismatch < r.nMismatch →
        classifyRec thMapq thMismatch thAligned r =
          some (Node.notValid (NotValidType.tooManyMisMatch r.nMismatch))) ∧
      (r.rname ≠ "*" → ¬r.mapq < thMapq → ¬thMismatch < r.nMismatch →
        thAligned < r.nAligned →
        classifyRec thMapq thMismatch thAligned r =
          some (Node.notValid (NotValidType.tooManyAligned r.nAligned))) := by
  intro thMapq thMismatch thAligned r
  refine ⟨?_, ?_, ?_, ?_⟩ <;> intros <;> simp [classifyRec, *]

/-- C7 witness: a record that is unmapped and fails every later threshold
still classifies as `NotFound`. -/
theorem c7_witness :
    classifyRec 60 0 1 ⟨7, "*", 0, 5, 9⟩ =
      some (Node.notValid NotValidType.notFound) :=
  (c7_classification_precedence 60 0 1 ⟨7, "*", 0, 5, 9⟩).1 rfl

/-- C8: a Bait-Prey pair (in either order) with raw count `c` adds `c` to
the edge-table entry keyed bait-first and increments the valid-pair counter
by exactly 1. -/
theorem c8_valid_pair_counting :
    ∀ (tbl : List ((String × String) × Nat)) (rc : GECounter)
      (b p : String) (c : Nat),
      countGE tbl rc (Node.bait b) (Node.prey p) c =
        (bumpEdge tbl (b, p) c, { rc with nValidPair := rc.nValidPair + 1 }) ∧
      countGE tbl rc (Node.prey p) (Node.bait b) c =
        (bumpEdge tbl (b, p) c, { rc with nValidPair := rc.nValidPair + 1 }) ∧
      getEdgeCnt (bumpEdge tbl (b, p) c) (b, p) = getEdgeCnt tbl (b, p) + c :=
  fun tbl _ b p c => ⟨rfl, rfl, getEdgeCnt_bumpEdge tbl (b, p) c⟩

/-- C9: when no processed tag pair is Bait-Bait or Prey-Prey, the four
pair-category counters gain exactly one unit per pair, so their sum equals
the number of pairs processed. -/
theorem c9_pair_category_exhaustive :
    ∀ pairs : List (Node × Node × Nat),
      (∀ x ∈ pairs, (isBaitNode x.1 && isBaitNode x.2.1) = false ∧
        (isPreyNode x.1 && isPreyNode x.2.1) = false) →
      ∀ (tbl : List ((String × String) × Nat)) (rc : GECounter),
        totalGE (runPairs pairs (tbl, rc)).2 = totalGE rc + pairs.length := by
  intro pairs
  induction pairs with
  | nil =>
    intro _ _ _
    simp [runPairs]
  | cons p rest ih =>
    intro hmix tbl rc
    obtain ⟨n1, n2, c⟩ := p
    have hp := hmix (n1, n2, c) (by simp)
    simp only [runPairs]
    have hrec := ih (fun x hx => hmix x (by simp [hx]))
      (countGE tbl rc n1 n2 c).1 (countGE tbl rc n1 n2 c).2
    rw [show ((countGE tbl rc n1 n2 c).1, (countGE tbl rc n1 n2 c).2) =
      countGE tbl rc n1 n2 c from rfl] at hrec
    rw [hrec, totalGE_countGE hp.1 hp.2, List.length_cons]
    omega

/-- C9 witness: one valid pair and one invalid-invalid pair give total 2. -/
theorem c9_witness :
    totalGE (runPairs
      [(Node.bait "bait_a", Node.prey "prey_b", 5),
        (Node.notValid NotValidType.notFound,
          Node.notValid NotValidType.notFound, 2)]
      ([], ⟨0, 0, 0, 0⟩)).2 = totalGE ⟨0, 0, 0, 0⟩ + 2 :=
  c9_pair_category_exhaustive _ (by decide) [] ⟨0, 0, 0, 0⟩

/-- C10 (amended): under the wrap-on-overflow `u64`/`usize` model, the
wrapped `seq.len() - 1` is never used when the sequence is empty, so the
concurrent encoder returns code 0 for the empty sequence and succeeds on
every sequence of length at most 32 (under an overflow-checked build the
same subtraction would panic instead, which is the hazard the claim
describes). -/
theorem c10_empty_encode :
    compressSeqPC [] = some 0 ∧
    ∀ s : List Nat, s.length ≤ 32 → compressSeqPC s ≠ none := by
  constructor
  · rfl
  · intro s h hnone
    rw [compressSeqPC_none] at hnone
    omega

/-- C10 witness: a singleton sequence encodes successfully. -/
theorem c10_witness : compressSeqPC [65] ≠ none :=
  c10_empty_encode.2 [65] (by decide)

/-- C10 counterexample to the claim as stated: the empty sequence does
return a sequence code (0) in the wrapping model, rather than failing. -/
theorem c10_cex : compressSeqPC [] = some 0 := rfl

end RLLY2H
